import Mathlib

set_option maxRecDepth 100000

/-!
Verification of the migration script `fix_tools.py`.

The script applies four `re.sub` rules to the text of each target file.
Rules 1, 2 and 4 use patterns in which every regex metacharacter is
escaped or inert, so they are literal find-and-replace-all operations;
rule 3 uses the genuine pattern `(description: ['"][^'"]+['"],)` whose
greedy character class makes matching deterministic.  Texts are embedded
as `List Char`; the substitution scan of `re.sub` (left to right,
non-overlapping, continuing after each match) is embedded as a
fuel-indexed structural recursion so that every definition evaluates
inside the kernel.
-/

/-- Boolean test: the first list is a prefix of the second. -/
def pfx : List Char → List Char → Bool
  | [], _ => true
  | _ :: _, [] => false
  | a :: as, b :: bs => if a = b then pfx as bs else false

/-- Boolean test: the first list occurs as a contiguous substring of the second. -/
def occursIn (q : List Char) : List Char → Bool
  | [] => pfx q []
  | c :: cs => pfx q (c :: cs) || occursIn q cs

theorem pfx_iff : ∀ p l : List Char, pfx p l = true ↔ ∃ t, l = p ++ t := by
  intro p
  induction p with
  | nil => intro l; simp [pfx]
  | cons a as ih =>
    intro l
    cases l with
    | nil => simp [pfx]
    | cons b bs =>
      constructor
      · intro h
        by_cases hab : a = b
        · subst hab
          simp [pfx] at h
          rcases (ih bs).1 h with ⟨t, ht⟩
          exact ⟨t, by simp [ht]⟩
        · simp [pfx, hab] at h
      · rintro ⟨t, ht⟩
        simp at ht
        obtain ⟨hb, hbs⟩ := ht
        subst hb
        simp [pfx]
        exact (ih bs).2 ⟨t, hbs⟩

theorem pfx_refl (l : List Char) : pfx l l = true :=
  (pfx_iff l l).2 ⟨[], by simp⟩

theorem pfx_append_self (p t : List Char) : pfx p (p ++ t) = true :=
  (pfx_iff p (p ++ t)).2 ⟨t, rfl⟩

theorem pfx_length {p l : List Char} (h : pfx p l = true) : p.length ≤ l.length := by
  rcases (pfx_iff p l).1 h with ⟨t, ht⟩
  subst ht; simp

theorem pfx_nil {q : List Char} (h : pfx q [] = true) : q = [] := by
  cases q with
  | nil => rfl
  | cons a as => simp [pfx] at h

/-- Analysis of a prefix of an appended list. -/
theorem pfx_append_cases {q A B : List Char} (h : pfx q (A ++ B) = true) :
    pfx q A = true ∨ ∃ γ, q = A ++ γ ∧ pfx γ B = true := by
  induction A generalizing q with
  | nil => exact Or.inr ⟨q, by simp, h⟩
  | cons a A' ih =>
    cases q with
    | nil => exact Or.inl rfl
    | cons x q' =>
      simp only [List.cons_append, pfx] at h
      by_cases hax : x = a
      · subst hax
        simp at h
        rcases ih h with h1 | ⟨γ, hγ1, hγ2⟩
        · exact Or.inl (by simp [pfx, h1])
        · exact Or.inr ⟨γ, by simp [hγ1], hγ2⟩
      · rw [if_neg hax] at h
        exact absurd h (by simp)

theorem pfx_mono {q A : List Char} (B : List Char) (h : pfx q A = true) :
    pfx q (A ++ B) = true := by
  rcases (pfx_iff q A).1 h with ⟨t, ht⟩
  exact (pfx_iff q (A ++ B)).2 ⟨t ++ B, by simp [ht]⟩

theorem pfx_of_le {q A B : List Char} (h : pfx q (A ++ B) = true)
    (hlen : q.length ≤ A.length) : pfx q A = true := by
  rcases pfx_append_cases h with h1 | ⟨γ, hγ1, hγ2⟩
  · exact h1
  · subst hγ1
    simp at hlen
    subst hlen
    simpa using pfx_refl A

theorem occursIn_of_pfx {q l : List Char} (h : pfx q l = true) : occursIn q l = true := by
  cases l with
  | nil => simpa [occursIn] using h
  | cons c cs => simp [occursIn, h]

theorem occursIn_cons {q : List Char} (c : Char) {cs : List Char}
    (h : occursIn q cs = true) : occursIn q (c :: cs) = true := by
  simp [occursIn, h]

theorem occursIn_append_right {q B : List Char} (A : List Char)
    (h : occursIn q B = true) : occursIn q (A ++ B) = true := by
  induction A with
  | nil => simpa
  | cons a A' ih => exact occursIn_cons a ih

theorem occursIn_nil {q : List Char} (hq : q ≠ []) : occursIn q [] = false := by
  cases q with
  | nil => exact absurd rfl hq
  | cons a as => simp [occursIn, pfx]

/-- The cons-level unfolding of `occursIn`, as an equation usable in both directions. -/
theorem occursIn_cons_eq (q : List Char) (c : Char) (cs : List Char) :
    occursIn q (c :: cs) = (pfx q (c :: cs) || occursIn q cs) := rfl

/-- Decomposition of an occurrence inside an appended list: the occurrence lies
in the left part, in the right part, or straddles the boundary. -/
theorem occursIn_split {q A B : List Char} (h : occursIn q (A ++ B) = true) :
    occursIn q A = true ∨ occursIn q B = true ∨
      ∃ u β γ, A = u ++ β ∧ q = β ++ γ ∧ β ≠ [] ∧ γ ≠ [] ∧ pfx γ B = true := by
  induction A with
  | nil => exact Or.inr (Or.inl (by simpa using h))
  | cons a A' ih =>
    rw [List.cons_append, occursIn_cons_eq, Bool.or_eq_true] at h
    rcases h with h | h
    · rw [← List.cons_append] at h
      rcases pfx_append_cases h with h1 | ⟨γ, hγ1, hγ2⟩
      · exact Or.inl (occursIn_of_pfx h1)
      · cases γ with
        | nil =>
          refine Or.inl (occursIn_of_pfx ?_)
          rw [hγ1]; simpa using pfx_refl (a :: A')
        | cons g gs =>
          exact Or.inr (Or.inr ⟨[], a :: A', g :: gs, by simp, by simpa using hγ1,
            by simp, by simp, hγ2⟩)
    · rcases ih h with h1 | h1 | ⟨u, β, γ, h1, h2, h3, h4, h5⟩
      · exact Or.inl (occursIn_cons a h1)
      · exact Or.inr (Or.inl h1)
      · exact Or.inr (Or.inr ⟨a :: u, β, γ, by simp [h1], h2, h3, h4, h5⟩)

/-! ## The substitution scan of `re.sub` for a literal pattern

`raF P R fuel l` replaces, scanning left to right, every non-overlapping
occurrence of the literal pattern `P` in `l` by `R`, continuing after the
end of each match, exactly as Python's `re.sub` does for a pattern with
no active metacharacters.  The fuel argument makes the recursion
structural; `replaceAll` supplies enough fuel. -/

def raF (P R : List Char) : Nat → List Char → List Char
  | 0, l => l
  | _ + 1, [] => []
  | fuel + 1, c :: cs =>
    if P ≠ [] ∧ pfx P (c :: cs) = true then
      R ++ raF P R fuel ((c :: cs).drop P.length)
    else
      c :: raF P R fuel cs

/-- `re.sub` with a literal (metacharacter-free) pattern `P` and literal
replacement `R`: replace all non-overlapping occurrences, left to right. -/
def replaceAll (P R l : List Char) : List Char :=
  raF P R l.length l

theorem raF_nil (P R : List Char) : ∀ n, raF P R n [] = [] := by
  intro n; cases n <;> rfl

theorem raF_fuel (P R : List Char) :
    ∀ n m l, l.length ≤ n → l.length ≤ m → raF P R n l = raF P R m l := by
  intro n
  induction n with
  | zero =>
    intro m l hn _
    have : l = [] := by
      cases l with
      | nil => rfl
      | cons c cs => simp at hn
    subst this
    rw [raF_nil, raF_nil]
  | succ n ih =>
    intro m l hn hm
    cases l with
    | nil => rw [raF_nil, raF_nil]
    | cons c cs =>
      cases m with
      | zero => simp at hm
      | succ m =>
        show raF P R (n+1) (c :: cs) = raF P R (m+1) (c :: cs)
        by_cases h : P ≠ [] ∧ pfx P (c :: cs) = true
        · have hP1 : 1 ≤ P.length := by
            cases hPc : P with
            | nil => exact absurd hPc h.1
            | cons a as => simp
          have hd : ((c :: cs).drop P.length).length ≤ n := by
            rw [List.length_drop, List.length_cons]
            simp at hn
            omega
          have hd' : ((c :: cs).drop P.length).length ≤ m := by
            rw [List.length_drop, List.length_cons]
            simp at hm
            omega
          simp only [raF, if_pos h]
          rw [ih m _ hd hd']
        · have hd : cs.length ≤ n := by simp at hn; omega
          have hd' : cs.length ≤ m := by simp at hm; omega
          simp only [raF, if_neg h]
          rw [ih m _ hd hd']

theorem replaceAll_nil (P R : List Char) : replaceAll P R [] = [] := rfl

theorem replaceAll_matchStep {P l : List Char} (R : List Char)
    (hP : P ≠ []) (h : pfx P l = true) :
    replaceAll P R l = R ++ replaceAll P R (l.drop P.length) := by
  cases l with
  | nil =>
    cases P with
    | nil => exact absurd rfl hP
    | cons a as => simp [pfx] at h
  | cons c cs =>
    show raF P R (c :: cs).length (c :: cs) = _
    have hP1 : 1 ≤ P.length := by
      cases hPc : P with
      | nil => exact absurd hPc hP
      | cons a as => simp
    simp only [List.length_cons, raF, if_pos (And.intro hP h)]
    congr 1
    apply raF_fuel
    · simp only [List.length_drop]; simp; omega
    · simp

theorem replaceAll_skipStep {P : List Char} (R : List Char) (c : Char) (cs : List Char)
    (h : ¬(P ≠ [] ∧ pfx P (c :: cs) = true)) :
    replaceAll P R (c :: cs) = c :: replaceAll P R cs := by
  show raF P R (c :: cs).length (c :: cs) = _
  simp only [List.length_cons, raF, if_neg h]
  rfl

/-- A rule is a no-op on text in which its pattern does not occur. -/
theorem replaceAll_noop {P : List Char} (R : List Char) :
    ∀ l, occursIn P l = false → replaceAll P R l = l := by
  intro l
  induction l with
  | nil => intro _; rfl
  | cons c cs ih =>
    intro h
    rw [occursIn_cons_eq] at h
    simp only [Bool.or_eq_false_iff] at h
    rw [replaceAll_skipStep R c cs (fun hc => by rw [hc.2] at h; exact absurd h.1 (by simp)),
      ih h.2]

/-- Tracing a prefix of the scan's output back to the input: either the
prefix already sits at the head of the input, or the input splits as
`d ++ t` where the scan copied `d` verbatim and then fired on `t`, and the
remainder of the prefix continues into the replacement block. -/
theorem replaceAll_pfx_trace {P : List Char} (R : List Char) (hP : P ≠ []) :
    ∀ n s q, s.length ≤ n → pfx q (replaceAll P R s) = true →
      pfx q s = true ∨
        ∃ d e t, s = d ++ t ∧ q = d ++ e ∧ pfx P t = true ∧ e ≠ [] ∧
          pfx e (R ++ replaceAll P R (t.drop P.length)) = true := by
  intro n
  induction n with
  | zero =>
    intro s q hs hq
    have : s = [] := by
      cases s with
      | nil => rfl
      | cons c cs => simp at hs
    subst this
    rw [replaceAll_nil] at hq
    rw [pfx_nil hq]
    exact Or.inl rfl
  | succ n ih =>
    intro s q hs hq
    cases s with
    | nil =>
      rw [replaceAll_nil] at hq
      rw [pfx_nil hq]
      exact Or.inl rfl
    | cons c cs =>
      by_cases hm : pfx P (c :: cs) = true
      · cases q with
        | nil => exact Or.inl rfl
        | cons x q' =>
          refine Or.inr ⟨[], x :: q', c :: cs, by simp, by simp, hm, by simp, ?_⟩
          rw [replaceAll_matchStep R hP hm] at hq
          exact hq
      · rw [replaceAll_skipStep R c cs (fun hc => hm hc.2)] at hq
        cases q with
        | nil => exact Or.inl rfl
        | cons x q' =>
          have hx : x = c ∧ pfx q' (replaceAll P R cs) = true := by
            by_cases hxc : x = c
            · subst hxc
              simp only [pfx, if_pos rfl] at hq
              exact ⟨rfl, hq⟩
            · simp only [pfx, if_neg hxc] at hq
              exact absurd hq (by simp)
          obtain ⟨hxc, hq'⟩ := hx
          subst hxc
          have hcs : cs.length ≤ n := by simp at hs; omega
          rcases ih cs q' hcs hq' with h1 | ⟨d, e, t, ht1, ht2, ht3, ht4, ht5⟩
          · exact Or.inl (by simp [pfx, h1])
          · exact Or.inr ⟨x :: d, e, t, by simp [ht1], by simp [ht2], ht3, ht4, ht5⟩

/-- Side condition: no nonempty suffix of `R` shorter than `Q` is a prefix of `Q`
(so no occurrence of `Q` can begin strictly inside an emitted block `R` and
continue past its end). -/
def bordCR (Q R : List Char) : Bool :=
  (List.range R.length).all fun j =>
    !(decide ((R.drop j).length < Q.length) && pfx (R.drop j) Q)

/-- Side condition: every nonempty proper suffix of `Q` is prefix-incompatible
with `R` (so no occurrence of `Q` can end inside an emitted block `R`). -/
def bordDQ (Q R : List Char) : Bool :=
  (List.range Q.length).all fun j =>
    j == 0 || (!(pfx (Q.drop j) R) && !(pfx R (Q.drop j)))

/-- Side condition: `R` is not a strict prefix of `Q`. -/
def bordER (Q R : List Char) : Bool :=
  !(decide (R.length < Q.length) && pfx R Q)

theorem bordCR_spec {Q R : List Char} (h : bordCR Q R = true)
    {u β : List Char} (hR : R = u ++ β) (hβ : β ≠ []) (hlt : β.length < Q.length) :
    pfx β Q = false := by
  have hj : u.length < R.length := by
    rw [hR]
    cases β with
    | nil => exact absurd rfl hβ
    | cons b bs => simp
  have := List.all_eq_true.1 h u.length (List.mem_range.2 hj)
  have hdrop : R.drop u.length = β := by rw [hR]; simp
  rw [hdrop] at this
  simp only [Bool.not_eq_eq_eq_not, Bool.not_true, Bool.and_eq_false_iff] at this
  rcases this with h1 | h1
  · simp [hlt] at h1
  · simpa using h1

theorem bordDQ_spec {Q R : List Char} (h : bordDQ Q R = true)
    {d e : List Char} (hQ : Q = d ++ e) (hd : d ≠ []) (he : e ≠ []) :
    pfx e R = false ∧ pfx R e = false := by
  have hj0 : d.length ≠ 0 := by
    cases d with
    | nil => exact absurd rfl hd
    | cons a as => simp
  have hj : d.length < Q.length := by
    rw [hQ]
    cases e with
    | nil => exact absurd rfl he
    | cons b bs => simp
  have := List.all_eq_true.1 h d.length (List.mem_range.2 hj)
  have hdrop : Q.drop d.length = e := by rw [hQ]; simp
  rw [hdrop] at this
  simp only [Bool.or_eq_true, beq_iff_eq] at this
  rcases this with h1 | h1
  · exact absurd h1 hj0
  · simp only [Bool.and_eq_true, Bool.not_eq_eq_eq_not, Bool.not_true] at h1
    exact h1

/-- If every side condition between forbidden string `Q` and replacement `R`
holds, an occurrence of `Q` in `R ++ X` forces an occurrence of `Q` in `X` —
for arbitrary continuation `X`. -/
theorem occursIn_block {Q R X : List Char}
    (hB : occursIn Q R = false) (hC : bordCR Q R = true)
    (h : occursIn Q (R ++ X) = true) : occursIn Q X = true := by
  rcases occursIn_split h with h1 | h1 | ⟨u, β, γ, h1, h2, h3, h4, h5⟩
  · rw [hB] at h1; exact absurd h1 (by simp)
  · exact h1
  · exfalso
    have hβQ : pfx β Q = true := by
      rw [h2]; exact pfx_append_self β γ
    have hlt : β.length < Q.length := by
      rw [h2]
      cases γ with
      | nil => exact absurd rfl h4
      | cons g gs => simp
    rw [bordCR_spec hC h1 h3 hlt] at hβQ
    exact absurd hβQ (by simp)

/-- Self-freeness of the scan: under the side conditions, the output of
`replaceAll P R` contains no occurrence of `P` at all. -/
theorem replaceAll_selfFree {P R : List Char} (hP : P ≠ [])
    (hB : occursIn P R = false) (hC : bordCR P R = true) (hD : bordDQ P R = true) :
    ∀ n s, s.length ≤ n → occursIn P (replaceAll P R s) = false := by
  intro n
  induction n with
  | zero =>
    intro s hs
    have : s = [] := by
      cases s with
      | nil => rfl
      | cons c cs => simp at hs
    subst this
    rw [replaceAll_nil]
    exact occursIn_nil hP
  | succ n ih =>
    intro s hs
    cases s with
    | nil => rw [replaceAll_nil]; exact occursIn_nil hP
    | cons c cs =>
      by_cases hm : pfx P (c :: cs) = true
      · obtain ⟨s', hs'⟩ := (pfx_iff P (c :: cs)).1 hm
        rw [replaceAll_matchStep R hP hm]
        have hdrop : (c :: cs).drop P.length = s' := by rw [hs']; simp
        rw [hdrop]
        rw [Bool.eq_false_iff]
        intro h
        have hs'n : s'.length ≤ n := by
          have hPl : 1 ≤ P.length := by
            cases hPc : P with
            | nil => exact absurd hPc hP
            | cons a as => simp
          have hlen2 : cs.length + 1 = P.length + s'.length := by
            have := congrArg List.length hs'
            simpa using this
          simp at hs
          omega
        have := occursIn_block hB hC h
        rw [ih s' hs'n] at this
        exact absurd this (by simp)
      · rw [replaceAll_skipStep R c cs (fun hc => hm hc.2)]
        rw [Bool.eq_false_iff]
        intro h
        rw [occursIn_cons_eq, Bool.or_eq_true] at h
        have hcs : cs.length ≤ n := by simp at hs; omega
        rcases h with h | h
        · have h' : pfx P (replaceAll P R (c :: cs)) = true := by
            rw [replaceAll_skipStep R c cs (fun hc => hm hc.2)]
            exact h
          rcases replaceAll_pfx_trace R hP (n + 1) (c :: cs) P (by simpa using hs) h' with
            h1 | ⟨d, e, t, ht1, ht2, ht3, ht4, ht5⟩
          · exact hm h1
          · cases d with
            | nil =>
              simp at ht1 ht2
              rw [← ht1] at ht3
              exact hm ht3
            | cons a d' =>
              have hbord := bordDQ_spec hD ht2 (by simp) ht4
              rcases pfx_append_cases ht5 with h2 | ⟨γ, hγ1, hγ2⟩
              · rw [hbord.1] at h2; exact absurd h2 (by simp)
              · have : pfx R e = true := by rw [hγ1]; exact pfx_append_self R γ
                rw [hbord.2] at this
                exact absurd this (by simp)
        · rw [ih cs hcs] at h
          exact absurd h (by simp)

/-- Transfer of freeness through the scan: if a string `Q` satisfying the side
conditions against the replacement `R` does not occur in the input, it does
not occur in the output of `replaceAll P R` either. -/
theorem replaceAll_transfer {Q P R : List Char} (hP : P ≠ []) (hQ : Q ≠ [])
    (hB : occursIn Q R = false) (hC : bordCR Q R = true) (hD : bordDQ Q R = true)
    (hE : bordER Q R = true) :
    ∀ n s, s.length ≤ n → occursIn Q s = false →
      occursIn Q (replaceAll P R s) = false := by
  intro n
  induction n with
  | zero =>
    intro s hs _
    have : s = [] := by
      cases s with
      | nil => rfl
      | cons c cs => simp at hs
    subst this
    rw [replaceAll_nil]
    exact occursIn_nil hQ
  | succ n ih =>
    intro s hs hfree
    cases s with
    | nil => rw [replaceAll_nil]; exact occursIn_nil hQ
    | cons c cs =>
      by_cases hm : pfx P (c :: cs) = true
      · obtain ⟨s', hs'⟩ := (pfx_iff P (c :: cs)).1 hm
        rw [replaceAll_matchStep R hP hm]
        have hdrop : (c :: cs).drop P.length = s' := by rw [hs']; simp
        rw [hdrop]
        rw [Bool.eq_false_iff]
        intro h
        have hs'n : s'.length ≤ n := by
          have hPl : 1 ≤ P.length := by
            cases hPc : P with
            | nil => exact absurd hPc hP
            | cons a as => simp
          have hlen2 : cs.length + 1 = P.length + s'.length := by
            have := congrArg List.length hs'
            simpa using this
          simp at hs
          omega
        have hfree' : occursIn Q s' = false := by
          rw [Bool.eq_false_iff]
          intro hx
          have := occursIn_append_right P hx
          rw [← hs', hfree] at this
          exact absurd this (by simp)
        have := occursIn_block hB hC h
        rw [ih s' hs'n hfree'] at this
        exact absurd this (by simp)
      · rw [replaceAll_skipStep R c cs (fun hc => hm hc.2)]
        rw [Bool.eq_false_iff]
        intro h
        rw [occursIn_cons_eq, Bool.or_eq_true] at h
        have hcs : cs.length ≤ n := by simp at hs; omega
        have hfreecs : occursIn Q cs = false := by
          rw [Bool.eq_false_iff]
          intro hx
          have := occursIn_cons c hx
          rw [hfree] at this
          exact absurd this (by simp)
        rcases h with h | h
        · have h' : pfx Q (replaceAll P R (c :: cs)) = true := by
            rw [replaceAll_skipStep R c cs (fun hc => hm hc.2)]
            exact h
          rcases replaceAll_pfx_trace R hP (n + 1) (c :: cs) Q (by simpa using hs) h' with
            h1 | ⟨d, e, t, ht1, ht2, ht3, ht4, ht5⟩
          · rw [occursIn_of_pfx h1] at hfree
            exact absurd hfree (by simp)
          · cases d with
            | nil =>
              have hQe : Q = e := by simpa using ht2
              rcases pfx_append_cases ht5 with h2 | ⟨γ, hγ1, hγ2⟩
              · rw [← hQe] at h2
                rw [occursIn_of_pfx h2] at hB
                exact absurd hB (by simp)
              · cases γ with
                | nil =>
                  have hQR : Q = R := by rw [hQe, hγ1]; simp
                  rw [hQR] at hB
                  rw [occursIn_of_pfx (pfx_refl R)] at hB
                  exact absurd hB (by simp)
                | cons g gs =>
                  have hRQ : pfx R Q = true := by
                    rw [hQe, hγ1]; exact pfx_append_self R (g :: gs)
                  have hlen : R.length < Q.length := by
                    rw [hQe, hγ1]; simp
                  rw [bordER] at hE
                  simp only [Bool.not_eq_eq_eq_not, Bool.not_true, Bool.and_eq_false_iff] at hE
                  rcases hE with h3 | h3
                  · simp at h3
                    omega
                  · rw [h3] at hRQ
                    exact absurd hRQ (by simp)
            | cons a d' =>
              have hbord := bordDQ_spec hD ht2 (by simp) ht4
              rcases pfx_append_cases ht5 with h2 | ⟨γ, hγ1, hγ2⟩
              · rw [hbord.1] at h2; exact absurd h2 (by simp)
              · have : pfx R e = true := by rw [hγ1]; exact pfx_append_self R γ
                rw [hbord.2] at this
                exact absurd this (by simp)
        · rw [ih cs hcs hfreecs] at h
          exact absurd h (by simp)

/-! ## Rule 3: the pattern `(description: ['"][^'"]+['"],)`

At a given position the pattern matches iff the literal `description: ` is
followed by a quote character, a nonempty maximal run of non-quote
characters, a quote character and a comma.  (The greedy `[^'"]+` admits no
successful backtracking: shortening the run would place a non-quote
character where the class `['"]` must match, so the match is determined.)
The replacement keeps the whole match (group 1) and appends a line
`        category: '<label>',`. -/

def descLit : List Char := "description: ".data

def isQuote (c : Char) : Bool := c == '\x27' || c == '\x22'

/-- Strip a literal off the front of a list, if present. -/
def stripLit : List Char → List Char → Option (List Char)
  | [], l => some l
  | _ :: _, [] => none
  | a :: as, b :: bs => if a = b then stripLit as bs else none

/-- The text inserted after the matched description field.  The script's
replacement template is the raw f-string `\1\n        category: \'{label}\',`:
the template parser of `re` expands `\1` to the match and `\n` to a newline,
but passes the unknown non-letter escape `\'` through with its backslash, so
the inserted text is newline, eight spaces, `category: \'<label>\',` — with a
literal backslash before each quote. -/
def catRepl (cat : List Char) : List Char :=
  "\n        category: \x5c\x27".data ++ cat ++ "\x5c\x27,".data

/-- The part of rule 3's pattern after the literal `description: `: a quote,
a nonempty greedy run of non-quotes, a quote, a comma. -/
def tryMatch3Core : List Char → Option (List Char × List Char)
  | [] => none
  | q1 :: l2 =>
    if isQuote q1 then
      match l2.dropWhile (fun c => !(isQuote c)) with
      | q2 :: c2 :: rest =>
        if (l2.takeWhile fun c => !(isQuote c)) = [] then none
        else if c2 = ',' then
          some (descLit ++ q1 :: ((l2.takeWhile fun c => !(isQuote c)) ++ [q2, c2]), rest)
        else none
      | _ => none
    else none

/-- Attempt to match rule 3's pattern at the head of the list.  On success,
returns the matched span (regex group 1) and the remainder of the input. -/
def tryMatch3 (l : List Char) : Option (List Char × List Char) :=
  (stripLit descLit l).elim none tryMatch3Core

theorem stripLit_some : ∀ p l l1 : List Char, stripLit p l = some l1 → l = p ++ l1 := by
  intro p
  induction p with
  | nil =>
    intro l l1 h
    simp [stripLit] at h
    simp [h]
  | cons a as ih =>
    intro l l1 h
    cases l with
    | nil => simp [stripLit] at h
    | cons b bs =>
      by_cases hab : a = b
      · subst hab
        simp only [stripLit, if_pos rfl] at h
        rw [List.cons_append]
        rw [ih bs l1 h]
      · simp only [stripLit, if_neg hab] at h
        exact absurd h (by simp)

theorem stripLit_append : ∀ p t : List Char, stripLit p (p ++ t) = some t := by
  intro p
  induction p with
  | nil => intro t; simp [stripLit]
  | cons a as ih => intro t; simp [stripLit, ih]

/-- Structure of a successful rule 3 match: the match plus the remainder
reassemble the input, the match is nonempty and starts with `description: `. -/
theorem tryMatch3_some {l m r : List Char} (h : tryMatch3 l = some (m, r)) :
    l = m ++ r ∧ m ≠ [] ∧ pfx descLit l = true := by
  unfold tryMatch3 at h
  cases hs : stripLit descLit l with
  | none => rw [hs] at h; exact absurd h (by simp)
  | some l1 =>
    rw [hs] at h
    simp only [Option.elim_some] at h
    have hl : l = descLit ++ l1 := stripLit_some descLit l _ hs
    unfold tryMatch3Core at h
    split at h
    · exact absurd h (by simp)
    · rename_i q1 l2
      split at h
      · split at h
        · split at h
          · exact absurd h (by simp)
          · split at h
            · rename_i q2 c2 rest hd hrun hc2
              simp only [Option.some_inj, Prod.mk.injEq] at h
              obtain ⟨hm, hr⟩ := h
              refine ⟨?_, ?_, ?_⟩
              · rw [hl, ← hm, ← hr]
                have hsplit : (l2.takeWhile fun c => !(isQuote c)) ++
                    (l2.dropWhile fun c => !(isQuote c)) = l2 :=
                  List.takeWhile_append_dropWhile (fun c => !(isQuote c)) l2
                rw [hd] at hsplit
                conv_lhs => rw [← hsplit]
                simp
              · rw [← hm]; simp [descLit]
              · rw [hl]; exact pfx_append_self descLit (q1 :: l2)
            · exact absurd h (by simp)
        · exact absurd h (by simp)
      · exact absurd h (by simp)

def sub3F (cat : List Char) : Nat → List Char → List Char
  | 0, l => l
  | _ + 1, [] => []
  | fuel + 1, c :: cs =>
    match tryMatch3 (c :: cs) with
    | some (m, r) => m ++ catRepl cat ++ sub3F cat fuel r
    | none => c :: sub3F cat fuel cs

/-- Rule 3 of the script: `re.sub` with the description pattern, scanning left
to right and continuing after each match. -/
def sub3 (cat l : List Char) : List Char := sub3F cat l.length l

/-- Whether rule 3's pattern matches anywhere in the text. -/
def hasMatch3 : List Char → Bool
  | [] => (tryMatch3 []).isSome
  | c :: cs => (tryMatch3 (c :: cs)).isSome || hasMatch3 cs

theorem sub3F_nil (cat : List Char) : ∀ n, sub3F cat n [] = [] := by
  intro n; cases n <;> rfl

theorem sub3F_fuel (cat : List Char) :
    ∀ n m l, l.length ≤ n → l.length ≤ m → sub3F cat n l = sub3F cat m l := by
  intro n
  induction n with
  | zero =>
    intro m l hn _
    have : l = [] := by
      cases l with
      | nil => rfl
      | cons c cs => simp at hn
    subst this
    rw [sub3F_nil, sub3F_nil]
  | succ n ih =>
    intro m l hn hm
    cases l with
    | nil => rw [sub3F_nil, sub3F_nil]
    | cons c cs =>
      cases m with
      | zero => simp at hm
      | succ m =>
        show sub3F cat (n+1) (c :: cs) = sub3F cat (m+1) (c :: cs)
        cases htm : tryMatch3 (c :: cs) with
        | none =>
          simp only [sub3F, htm]
          have h1 : cs.length ≤ n := by simp at hn; omega
          have h2 : cs.length ≤ m := by simp at hm; omega
          rw [ih m cs h1 h2]
        | some x =>
          obtain ⟨mm, r⟩ := x
          obtain ⟨hmr, hmne, _⟩ := tryMatch3_some htm
          have hr : r.length < (c :: cs).length := by
            rw [hmr]
            cases mm with
            | nil => exact absurd rfl hmne
            | cons y ys => simp; omega
          simp only [sub3F, htm]
          have h1 : r.length ≤ n := by simp at hn hr ⊢; omega
          have h2 : r.length ≤ m := by simp at hm hr ⊢; omega
          rw [ih m r h1 h2]

theorem sub3_nil (cat : List Char) : sub3 cat [] = [] := rfl

theorem sub3_matchStep {l m r : List Char} (cat : List Char)
    (h : tryMatch3 l = some (m, r)) :
    sub3 cat l = m ++ catRepl cat ++ sub3 cat r := by
  obtain ⟨hmr, hmne, _⟩ := tryMatch3_some h
  cases l with
  | nil =>
    exfalso
    have : tryMatch3 ([] : List Char) = none := rfl
    rw [this] at h
    exact absurd h (by simp)
  | cons c cs =>
    show sub3F cat (c :: cs).length (c :: cs) = _
    have hr : r.length < (c :: cs).length := by
      rw [hmr]
      cases m with
      | nil => exact absurd rfl hmne
      | cons y ys => simp; omega
    simp only [List.length_cons, sub3F, h]
    rw [sub3F_fuel cat cs.length r.length r (by simp at hr ⊢; omega) (by simp)]
    rfl

theorem sub3_skipStep {c : Char} {cs : List Char} (cat : List Char)
    (h : tryMatch3 (c :: cs) = none) :
    sub3 cat (c :: cs) = c :: sub3 cat cs := by
  show sub3F cat (c :: cs).length (c :: cs) = _
  simp only [List.length_cons, sub3F, h]
  rfl

theorem sub3_noop (cat : List Char) : ∀ l, hasMatch3 l = false → sub3 cat l = l := by
  intro l
  induction l with
  | nil => intro _; rfl
  | cons c cs ih =>
    intro h
    simp only [hasMatch3, Bool.or_eq_false_iff] at h
    obtain ⟨h1, h2⟩ := h
    have hnone : tryMatch3 (c :: cs) = none := by
      cases htm : tryMatch3 (c :: cs) with
      | none => rfl
      | some x => rw [htm] at h1; exact absurd h1 (by simp)
    rw [sub3_skipStep cat hnone, ih h2]

theorem hasMatch3_occ : ∀ l, hasMatch3 l = true → occursIn descLit l = true := by
  intro l
  induction l with
  | nil =>
    intro h
    have : tryMatch3 ([] : List Char) = none := rfl
    simp [hasMatch3, this] at h
  | cons c cs ih =>
    intro h
    simp only [hasMatch3, Bool.or_eq_true] at h
    rcases h with h | h
    · cases htm : tryMatch3 (c :: cs) with
      | none => rw [htm] at h; exact absurd h (by simp)
      | some x =>
        obtain ⟨m, r⟩ := x
        exact occursIn_of_pfx (tryMatch3_some htm).2.2
    · exact occursIn_cons c (ih h)

/-- Rule 3 is a no-op on any text in which `description: ` does not occur. -/
theorem sub3_noop_of_free {l : List Char} (cat : List Char)
    (h : occursIn descLit l = false) : sub3 cat l = l := by
  cases hv : hasMatch3 l with
  | false => exact sub3_noop cat l hv
  | true => rw [hasMatch3_occ l hv] at h; exact absurd h (by simp)

/-! ## The concrete rules of fix_tools.py

Rule 1 (import augmentation), rule 2 (metadata retyping) and rule 4
(signature widening) use regex patterns whose characters are all literal
(the escaped parentheses in rule 4 denote literal parentheses, and a brace
not forming a quantifier is literal in Python's `re`), so each is
`replaceAll` with the corresponding pattern and replacement strings. -/

def P1 : List Char := "import \x7b ToolExecutor, ToolResult \x7d from".data

def R1 : List Char := "import \x7b ToolExecutor, ToolResult, ToolMetadata \x7d from".data

def P2 : List Char := "static metadata = \x7b".data

def R2 : List Char := "public metadata: ToolMetadata = \x7b".data

def P4 : List Char :=
  "async execute(params: Record<string, any>): Promise<ToolResult>".data

def R4 : List Char :=
  ("async execute(params: any, context: \x7b workspaceRoot: string; outputChannel: any; onProgress?: (message: string) => void \x7d): Promise<ToolResult>").data

def sub1 (l : List Char) : List Char := replaceAll P1 R1 l

def sub2 (l : List Char) : List Char := replaceAll P2 R2 l

def sub4 (l : List Char) : List Char := replaceAll P4 R4 l

/-- The Rewrite Engine: the four rules of the script applied in their
declared order to the file content, with `cat` the category label. -/
def transform (cat l : List Char) : List Char := sub4 (sub3 cat (sub2 (sub1 l)))

/-! ## The batch loop over the target files -/

/-- A console line emitted by the script: `print(f'Fixed {tool}')` per
processed file, `print('All tools fixed!')` at the end. -/
inductive Report where
  | fixed (tool : String)
  | batchDone
deriving DecidableEq

/-- The fixed target list of the script. -/
def tools : List String :=
  ["ProjectScaffoldingTool.ts", "DatabaseSchemaTool.ts", "APIDocumentationTool.ts"]

/-- The category map of the script (keys are unique). -/
def categories : List (String × String) :=
  [("ProjectScaffoldingTool.ts", "Project Management"),
   ("DatabaseSchemaTool.ts", "Database"),
   ("APIDocumentationTool.ts", "Documentation")]

def assocGet : List (String × String) → String → Option String
  | [], _ => none
  | (k, v) :: rest, t => if k = t then some v else assocGet rest t

/-- `categories.get(tool, 'Development')`. -/
def categoryOf (tool : String) : String := (assocGet categories tool).getD "Development"

/-- `f'src/agent/executors/{tool}'`. -/
def pathOf (tool : String) : String := "src/agent/executors/" ++ tool

/-- The filesystem fragment visible to the script, as a path-content map. -/
def fsGet : List (String × List Char) → String → Option (List Char)
  | [], _ => none
  | (k, v) :: rest, p => if k = p then some v else fsGet rest p

def fsSet (fs : List (String × List Char)) (p : String) (v : List Char) :
    List (String × List Char) :=
  fs.map fun kv => if kv.1 = p then (p, v) else kv

/-- One iteration of the loop body: skip silently when the file is absent,
otherwise write the transformed content back and report `Fixed {tool}`. -/
def processTool (fs : List (String × List Char)) (tool : String) :
    List (String × List Char) × List Report :=
  match fsGet fs (pathOf tool) with
  | none => (fs, [])
  | some content =>
    (fsSet fs (pathOf tool) (transform (categoryOf tool).data content),
     [Report.fixed tool])

/-- The whole run: the loop over the target list followed by the final
`All tools fixed!` line. -/
def runBatch : List (String × List Char) → List String →
    List (String × List Char) × List Report
  | fs, [] => (fs, [Report.batchDone])
  | fs, t :: ts =>
    let r := processTool fs t
    let rest := runBatch r.1 ts
    (rest.1, r.2 ++ rest.2)

/-- The worked example of the specification (§8). -/
def legacyExample : List Char :=
  ("import \x7b ToolExecutor, ToolResult \x7d from \x27x\x27;\nclass C \x7b static metadata = \x7b\n  description: \x27d\x27,\n\x7d; async execute(params: Record<string, any>): Promise<ToolResult> \x7b\x7d \x7d").data

/-! ## Per-rule corollaries

The side conditions between each forbidden string and each replacement are
finite checks, discharged by `decide`. -/

theorem sub1_free (s : List Char) : occursIn P1 (sub1 s) = false :=
  replaceAll_selfFree (by decide) (by decide) (by decide) (by decide) s.length s le_rfl

theorem sub2_free (s : List Char) : occursIn P2 (sub2 s) = false :=
  replaceAll_selfFree (by decide) (by decide) (by decide) (by decide) s.length s le_rfl

theorem sub4_free (s : List Char) : occursIn P4 (sub4 s) = false :=
  replaceAll_selfFree (by decide) (by decide) (by decide) (by decide) s.length s le_rfl

theorem sub1_noop {s : List Char} (h : occursIn P1 s = false) : sub1 s = s :=
  replaceAll_noop R1 s h

theorem sub2_noop {s : List Char} (h : occursIn P2 s = false) : sub2 s = s :=
  replaceAll_noop R2 s h

theorem sub4_noop {s : List Char} (h : occursIn P4 s = false) : sub4 s = s :=
  replaceAll_noop R4 s h

theorem sub1_idem (s : List Char) : sub1 (sub1 s) = sub1 s :=
  sub1_noop (sub1_free s)

theorem sub4_idem (s : List Char) : sub4 (sub4 s) = sub4 s :=
  sub4_noop (sub4_free s)

theorem sub2_keeps_P1 {s : List Char} (h : occursIn P1 s = false) :
    occursIn P1 (sub2 s) = false :=
  replaceAll_transfer (by decide) (by decide) (by decide) (by decide) (by decide)
    (by decide) s.length s le_rfl h

theorem sub4_keeps_P1 {s : List Char} (h : occursIn P1 s = false) :
    occursIn P1 (sub4 s) = false :=
  replaceAll_transfer (by decide) (by decide) (by decide) (by decide) (by decide)
    (by decide) s.length s le_rfl h

theorem sub4_keeps_P2 {s : List Char} (h : occursIn P2 s = false) :
    occursIn P2 (sub4 s) = false :=
  replaceAll_transfer (by decide) (by decide) (by decide) (by decide) (by decide)
    (by decide) s.length s le_rfl h

theorem sub1_keeps_desc {s : List Char} (h : occursIn descLit s = false) :
    occursIn descLit (sub1 s) = false :=
  replaceAll_transfer (by decide) (by decide) (by decide) (by decide) (by decide)
    (by decide) s.length s le_rfl h

theorem sub2_keeps_desc {s : List Char} (h : occursIn descLit s = false) :
    occursIn descLit (sub2 s) = false :=
  replaceAll_transfer (by decide) (by decide) (by decide) (by decide) (by decide)
    (by decide) s.length s le_rfl h

theorem sub4_keeps_desc {s : List Char} (h : occursIn descLit s = false) :
    occursIn descLit (sub4 s) = false :=
  replaceAll_transfer (by decide) (by decide) (by decide) (by decide) (by decide)
    (by decide) s.length s le_rfl h

/-- On input free of `description: `, rule 3 never fires in either pass and
the whole engine is idempotent. -/
theorem transform_idem_of_noDesc (cat : List Char) {s : List Char}
    (h : occursIn descLit s = false) :
    transform cat (transform cat s) = transform cat s := by
  have hd1 : occursIn descLit (sub1 s) = false := sub1_keeps_desc h
  have hd2 : occursIn descLit (sub2 (sub1 s)) = false := sub2_keeps_desc hd1
  have h3 : sub3 cat (sub2 (sub1 s)) = sub2 (sub1 s) := sub3_noop_of_free cat hd2
  show sub4 (sub3 cat (sub2 (sub1 (transform cat s)))) = transform cat s
  have hfirst : transform cat s = sub4 (sub2 (sub1 s)) := by
    show sub4 (sub3 cat (sub2 (sub1 s))) = _
    rw [h3]
  rw [hfirst]
  have hP1X : occursIn P1 (sub4 (sub2 (sub1 s))) = false :=
    sub4_keeps_P1 (sub2_keeps_P1 (sub1_free s))
  have hP2X : occursIn P2 (sub4 (sub2 (sub1 s))) = false :=
    sub4_keeps_P2 (sub2_free (sub1 s))
  have hdX : occursIn descLit (sub4 (sub2 (sub1 s))) = false :=
    sub4_keeps_desc hd2
  rw [sub1_noop hP1X, sub2_noop hP2X, sub3_noop_of_free cat hdX, sub4_idem]

/-! ## Where rule 3 can fire -/

theorem pfx_cons_iff {a b : Char} {as bs : List Char} :
    pfx (a :: as) (b :: bs) = true ↔ a = b ∧ pfx as bs = true := by
  by_cases hab : a = b
  · subst hab; simp [pfx]
  · simp [pfx, hab]

theorem pfx_of_pfx_pfx : ∀ p q l : List Char, pfx p l = true → pfx q l = true →
    p.length ≤ q.length → pfx p q = true := by
  intro p
  induction p with
  | nil => intro q l _ _ _; rfl
  | cons a p' ih =>
    intro q l hp hq hlen
    cases l with
    | nil => simp [pfx] at hp
    | cons c l' =>
      obtain ⟨hac, hp'⟩ := pfx_cons_iff.1 hp
      cases q with
      | nil => simp at hlen
      | cons b q' =>
        obtain ⟨hbc, hq'⟩ := pfx_cons_iff.1 hq
        refine pfx_cons_iff.2 ⟨by rw [hac, hbc], ?_⟩
        exact ih q' l' hp' hq' (by simp at hlen; omega)

theorem occursIn_of_drop {q A : List Char} (j : Nat)
    (h : occursIn q (A.drop j) = true) : occursIn q A = true := by
  have := occursIn_append_right (A.take j) h
  rwa [List.take_append_drop] at this

/-- Freeness of `description: ` borders: needed so that an occurrence of the
anchor can never straddle the start of a known anchor position. -/
theorem descLit_noBorder {v γ : List Char} (hsplit : descLit = v ++ γ)
    (hv : v ≠ []) (hγ : γ ≠ []) : pfx γ descLit = false := by
  have hlt : γ.length < descLit.length := by
    rw [hsplit]
    cases v with
    | nil => exact absurd rfl hv
    | cons a as => simp; omega
  exact bordCR_spec (Q := descLit) (R := descLit) (by decide) hsplit hγ hlt

/-- No rule 3 match can start strictly inside a region `A` free of the
anchor `description: `, when the text continues with an anchor-headed `T`. -/
theorem tryMatch3_none_inside {A T : List Char} (hA : occursIn descLit A = false)
    (hT : pfx descLit T = true) :
    ∀ j, j < A.length → tryMatch3 (A.drop j ++ T) = none := by
  intro j hj
  cases htm : tryMatch3 (A.drop j ++ T) with
  | none => rfl
  | some x =>
    exfalso
    obtain ⟨m, r⟩ := x
    have hpfx : pfx descLit (A.drop j ++ T) = true := (tryMatch3_some htm).2.2
    have hvne : A.drop j ≠ [] := by
      intro hn
      have : A.length ≤ j := by
        have := congrArg List.length hn
        simp at this
        omega
      omega
    rcases pfx_append_cases hpfx with h1 | ⟨γ, hγ1, hγ2⟩
    · have : occursIn descLit A = true := occursIn_of_drop j (occursIn_of_pfx h1)
      rw [hA] at this
      exact absurd this (by simp)
    · cases hγe : γ with
      | nil =>
        subst hγe
        simp at hγ1
        have : occursIn descLit A = true := by
          refine occursIn_of_drop j (occursIn_of_pfx ?_)
          rw [← hγ1]
          exact pfx_refl descLit
        rw [hA] at this
        exact absurd this (by simp)
      | cons g gs =>
        have hγd : pfx γ descLit = true := by
          refine pfx_of_pfx_pfx γ descLit T hγ2 hT ?_
          have := congrArg List.length hγ1
          simp at this
          have hv1 : 1 ≤ (A.drop j).length := by
            cases hv : A.drop j with
            | nil => exact absurd hv hvne
            | cons y ys => simp
          omega
        rw [descLit_noBorder hγ1 hvne (by simp [hγe])] at hγd
        exact absurd hγd (by simp)

/-- The scan of rule 3 copies verbatim a region in which no match starts. -/
theorem sub3_append_skipA (cat : List Char) :
    ∀ A T : List Char, (∀ j, j < A.length → tryMatch3 (A.drop j ++ T) = none) →
      sub3 cat (A ++ T) = A ++ sub3 cat T := by
  intro A
  induction A with
  | nil => intro T _; simp
  | cons a A' ih =>
    intro T hA
    have h0 : tryMatch3 ((a :: A') ++ T) = none := by
      have := hA 0 (by simp)
      simpa using this
    rw [List.cons_append, sub3_skipStep cat (by rw [← List.cons_append]; exact h0)]
    rw [ih T (fun j hj => by
      have := hA (j + 1) (by simp; omega)
      simpa using this)]
    simp

theorem hasMatch3_append {X Y : List Char}
    (hX : ∀ j, j < X.length → tryMatch3 (X.drop j ++ Y) = none)
    (hY : hasMatch3 Y = false) : hasMatch3 (X ++ Y) = false := by
  induction X with
  | nil => simpa
  | cons x X' ih =>
    have h0 : tryMatch3 ((x :: X') ++ Y) = none := by
      have := hX 0 (by simp)
      simpa using this
    rw [List.cons_append, hasMatch3, Bool.or_eq_false_iff]
    constructor
    · rw [← List.cons_append, h0]; rfl
    · exact ih (fun j hj => by
        have := hX (j + 1) (by simp; omega)
        simpa using this)

theorem takeWhile_all {p : Char → Bool} :
    ∀ xs ys : List Char, xs.all p = true →
      (xs ++ ys).takeWhile p = xs ++ ys.takeWhile p := by
  intro xs
  induction xs with
  | nil => intro ys _; simp
  | cons x xs' ih =>
    intro ys hall
    simp only [List.all_cons, Bool.and_eq_true] at hall
    simp only [List.cons_append, List.takeWhile_cons, hall.1, ih ys hall.2]
    simp

theorem dropWhile_all {p : Char → Bool} :
    ∀ xs ys : List Char, xs.all p = true →
      (xs ++ ys).dropWhile p = ys.dropWhile p := by
  intro xs
  induction xs with
  | nil => intro ys _; simp
  | cons x xs' ih =>
    intro ys hall
    simp only [List.all_cons, Bool.and_eq_true] at hall
    simp only [List.cons_append, List.dropWhile_cons, hall.1, ih ys hall.2]
    simp

theorem tryMatch3_none_of_no_anchor {l : List Char} (h : pfx descLit l = false) :
    tryMatch3 l = none := by
  cases htm : tryMatch3 l with
  | none => rfl
  | some x =>
    obtain ⟨m, r⟩ := x
    rw [(tryMatch3_some htm).2.2] at h
    exact absurd h (by simp)

theorem hasMatch3_false_of_free {l : List Char} (h : occursIn descLit l = false) :
    hasMatch3 l = false := by
  cases hv : hasMatch3 l with
  | false => rfl
  | true => rw [hasMatch3_occ l hv] at h; exact absurd h (by simp)

/-- At the head of `description: '',` (empty value) rule 3 fails to match,
whatever follows: the class `[^'"]+` needs at least one character. -/
theorem tryMatch3_emptyDesc (t : List Char) :
    tryMatch3 (descLit ++ '\x27' :: '\x27' :: ',' :: t) = none := by
  unfold tryMatch3
  rw [stripLit_append]
  rfl

/-- A successful rule 3 match at the head of a well-formed description field:
the match is exactly the field and the scan resumes right after it. -/
theorem tryMatch3_descField {q1 q2 : Char} {val : List Char} (B : List Char)
    (hq1 : isQuote q1 = true) (hq2 : isQuote q2 = true) (hval : val ≠ [])
    (hvq : val.all (fun c => !(isQuote c)) = true) :
    tryMatch3 (descLit ++ q1 :: (val ++ q2 :: ',' :: B)) =
      some (descLit ++ q1 :: (val ++ [q2, ',']), B) := by
  unfold tryMatch3
  rw [stripLit_append]
  simp only [Option.elim_some]
  simp only [tryMatch3Core]
  have hdw : (val ++ q2 :: ',' :: B).dropWhile (fun c => !(isQuote c)) = q2 :: ',' :: B := by
    rw [dropWhile_all val _ hvq, List.dropWhile_cons]
    simp [hq2]
  have htw : (val ++ q2 :: ',' :: B).takeWhile (fun c => !(isQuote c)) = val := by
    rw [takeWhile_all val _ hvq, List.takeWhile_cons]
    simp [hq2]
  rw [hdw, htw]
  simp [hq1, hval]

/-- Rule 3 on a text with exactly one description field: the category line is
inserted exactly once, immediately after the field. -/
theorem sub3_insertOnce (cat : List Char) {q1 q2 : Char} {val A B : List Char}
    (hq1 : isQuote q1 = true) (hq2 : isQuote q2 = true) (hval : val ≠ [])
    (hvq : val.all (fun c => !(isQuote c)) = true)
    (hA : occursIn descLit A = false) (hB : occursIn descLit B = false) :
    sub3 cat (A ++ (descLit ++ q1 :: (val ++ q2 :: ',' :: B))) =
      A ++ ((descLit ++ q1 :: (val ++ [q2, ','])) ++ catRepl cat ++ B) := by
  rw [sub3_append_skipA cat A _
    (tryMatch3_none_inside hA (pfx_append_self descLit (q1 :: (val ++ q2 :: ',' :: B))))]
  rw [sub3_matchStep cat (tryMatch3_descField B hq1 hq2 hval hvq)]
  rw [sub3_noop_of_free cat hB]

/-- Rule 3 is a no-op on a text whose only description field has the empty
string as its value. -/
theorem sub3_emptyDesc_noop (cat : List Char) {A B : List Char}
    (hA : occursIn descLit A = false) (hB : occursIn descLit B = false) :
    sub3 cat (A ++ (descLit ++ '\x27' :: '\x27' :: ',' :: B)) =
      A ++ (descLit ++ '\x27' :: '\x27' :: ',' :: B) := by
  have hfact : ∀ j, j < (descLit ++ ['\x27', '\x27', ',']).length → 0 < j →
      pfx descLit ((descLit ++ ['\x27', '\x27', ',']).drop j) = false ∧
        pfx ((descLit ++ ['\x27', '\x27', ',']).drop j) descLit = false := by decide
  have hmid : hasMatch3 ((descLit ++ ['\x27', '\x27', ',']) ++ B) = false := by
    apply hasMatch3_append
    · intro j hj
      by_cases hj0 : j = 0
      · subst hj0
        simpa using tryMatch3_emptyDesc B
      · apply tryMatch3_none_of_no_anchor
        rw [Bool.eq_false_iff]
        intro hpfx
        rcases pfx_append_cases hpfx with h1 | ⟨γ, hγ1, _⟩
        · rw [(hfact j hj (Nat.pos_of_ne_zero hj0)).1] at h1
          exact absurd h1 (by simp)
        · have h2 : pfx ((descLit ++ ['\x27', '\x27', ',']).drop j) descLit = true :=
            (pfx_iff _ _).2 ⟨γ, hγ1⟩
          rw [(hfact j hj (Nat.pos_of_ne_zero hj0)).2] at h2
          exact absurd h2 (by simp)
    · exact hasMatch3_false_of_free hB
  have hall : hasMatch3 (A ++ ((descLit ++ ['\x27', '\x27', ',']) ++ B)) = false := by
    apply hasMatch3_append
    · refine tryMatch3_none_inside hA ?_
      have := pfx_append_self descLit (['\x27', '\x27', ','] ++ B)
      simpa using this
    · exact hmid
  have := sub3_noop cat _ hall
  simpa using this

/-! ## Behaviour of the batch loop -/

theorem fsGet_fsSet_same : ∀ (fs : List (String × List Char)) (p : String) (v : List Char),
    fsGet (fsSet fs p v) p = (fsGet fs p).map (fun _ => v) := by
  intro fs
  induction fs with
  | nil => intro p v; rfl
  | cons kv rest ih =>
    intro p v
    obtain ⟨k, w⟩ := kv
    by_cases hk : k = p
    · subst hk
      have hset : fsSet ((k, w) :: rest) k v = (k, v) :: fsSet rest k v := by
        simp [fsSet]
      rw [hset]
      show (if k = k then some v else fsGet (fsSet rest k v) k) = _
      rw [if_pos rfl]
      show _ = (if k = k then some w else fsGet rest k).map fun _ => v
      rw [if_pos rfl]
      rfl
    · simp only [fsSet, List.map_cons]
      rw [if_neg hk]
      simp only [fsGet]
      rw [if_neg hk, if_neg hk]
      exact ih p v

theorem fsGet_fsSet_other : ∀ (fs : List (String × List Char)) (p q : String)
    (v : List Char), q ≠ p → fsGet (fsSet fs p v) q = fsGet fs q := by
  intro fs
  induction fs with
  | nil => intro p q v _; rfl
  | cons kv rest ih =>
    intro p q v hqp
    obtain ⟨k, w⟩ := kv
    by_cases hk : k = p
    · subst hk
      simp only [fsSet, List.map_cons, if_pos rfl]
      simp only [fsGet]
      rw [if_neg (fun hh => hqp hh.symm), if_neg (fun hh => hqp hh.symm)]
      exact ih k q v hqp
    · simp only [fsSet, List.map_cons]
      rw [if_neg hk]
      simp only [fsGet]
      by_cases hkq : k = q
      · rw [if_pos hkq, if_pos hkq]
      · rw [if_neg hkq, if_neg hkq]
        exact ih p q v hqp

theorem processTool_get_other {fs : List (String × List Char)} {t : String} {q : String}
    (h : q ≠ pathOf t) : fsGet (processTool fs t).1 q = fsGet fs q := by
  unfold processTool
  cases hg : fsGet fs (pathOf t) with
  | none => rfl
  | some c => exact fsGet_fsSet_other fs (pathOf t) q _ h

theorem processTool_get_same (fs : List (String × List Char)) (t : String) :
    fsGet (processTool fs t).1 (pathOf t) =
      (fsGet fs (pathOf t)).map (fun c => transform (categoryOf t).data c) := by
  unfold processTool
  cases hg : fsGet fs (pathOf t) with
  | none => simp [hg]
  | some c =>
    simp only []
    rw [fsGet_fsSet_same, hg]
    rfl

theorem processTool_isSome (fs : List (String × List Char)) (t : String) (q : String) :
    (fsGet (processTool fs t).1 q).isSome = (fsGet fs q).isSome := by
  by_cases hq : q = pathOf t
  · subst hq
    rw [processTool_get_same]
    cases hg : fsGet fs (pathOf t) with
    | none => rfl
    | some c => rfl
  · rw [processTool_get_other hq]

theorem filter_congr_str {p q : String → Bool} :
    ∀ l : List String, (∀ x, x ∈ l → p x = q x) → l.filter p = l.filter q := by
  intro l
  induction l with
  | nil => intro _; rfl
  | cons a l' ih =>
    intro h
    simp only [List.filter_cons]
    rw [h a (by simp), ih (fun x hx => h x (by simp [hx]))]

/-- The console output of the run: one `Fixed` line per target with a backing
file (in list order), then the final batch signal — regardless of skips. -/
theorem runBatch_reports : ∀ (ts : List String) (fs : List (String × List Char)),
    (runBatch fs ts).2 =
      (ts.filter fun t => (fsGet fs (pathOf t)).isSome).map Report.fixed ++
        [Report.batchDone] := by
  intro ts
  induction ts with
  | nil => intro fs; simp [runBatch]
  | cons t ts' ih =>
    intro fs
    show ((runBatch (processTool fs t).1 ts').1,
      (processTool fs t).2 ++ (runBatch (processTool fs t).1 ts').2).2 = _
    simp only []
    rw [ih (processTool fs t).1]
    rw [filter_congr_str ts' (fun u _ => by rw [processTool_isSome])]
    cases hg : fsGet fs (pathOf t) with
    | none =>
      have hr2 : (processTool fs t).2 = [] := by unfold processTool; rw [hg]
      rw [hr2]
      simp only [List.filter_cons, hg]
      simp
    | some c =>
      have hr2 : (processTool fs t).2 = [Report.fixed t] := by unfold processTool; rw [hg]
      rw [hr2]
      simp only [List.filter_cons, hg]
      simp

theorem runBatch_get_other : ∀ (ts : List String) (fs : List (String × List Char))
    (p : String), (∀ u, u ∈ ts → pathOf u ≠ p) →
      fsGet (runBatch fs ts).1 p = fsGet fs p := by
  intro ts
  induction ts with
  | nil => intro fs p _; rfl
  | cons t ts' ih =>
    intro fs p h
    show fsGet ((runBatch (processTool fs t).1 ts').1,
      (processTool fs t).2 ++ (runBatch (processTool fs t).1 ts').2).1 p = _
    simp only []
    rw [ih (processTool fs t).1 p (fun u hu => h u (by simp [hu]))]
    exact processTool_get_other (fun hh => h t (by simp) hh.symm)

/-- The content written back for a target is a function of only that target's
identifier and its own initial content. -/
theorem runBatch_content : ∀ (ts : List String) (fs : List (String × List Char))
    (t : String), t ∈ ts → List.Pairwise (fun a b => pathOf a ≠ pathOf b) ts →
      fsGet (runBatch fs ts).1 (pathOf t) =
        (fsGet fs (pathOf t)).map (fun c => transform (categoryOf t).data c) := by
  intro ts
  induction ts with
  | nil => intro fs t ht _; simp at ht
  | cons u ts' ih =>
    intro fs t ht hpw
    obtain ⟨hhead, htail⟩ := List.pairwise_cons.1 hpw
    show fsGet ((runBatch (processTool fs u).1 ts').1,
      (processTool fs u).2 ++ (runBatch (processTool fs u).1 ts').2).1 (pathOf t) = _
    simp only []
    rcases List.mem_cons.1 ht with hteq | htmem
    · subst hteq
      rw [runBatch_get_other ts' (processTool fs t).1 (pathOf t)
        (fun v hv => (hhead v hv).symm)]
      exact processTool_get_same fs t
    · rw [ih (processTool fs u).1 t htmem htail]
      rw [processTool_get_other (fun hh => hhead t htmem hh.symm)]

/-! ## The claims -/

/-- Claim C1, counterexample: applying the full four-rule Rewrite Engine twice
to the specification's own worked example does not equal applying it once —
the second pass matches the (unchanged) description field again and inserts a
second `category` line, so re-applying the engine to the worked example's
output does not leave it unchanged. -/
theorem claimC1_cex :
    transform ("Database".data) (transform ("Database".data) legacyExample) ≠
      transform ("Database".data) legacyExample := by
  decide

/-- Claim C1, amended: the Rewrite Engine applied twice equals the engine
applied once for every input text in which rule 3's anchor `description: `
does not occur (rules 1, 2 and 4 are idempotent and rule 3 never fires); on
texts with a description field — the worked example included — the second
application inserts a duplicate category field, so the original claim fails. -/
theorem claimC1_amended : ∀ (cat s : List Char), occursIn descLit s = false →
    transform cat (transform cat s) = transform cat s :=
  fun cat _ h => transform_idem_of_noDesc cat h

theorem claimC1_amended_witness :
    occursIn descLit ("static metadata = \x7b".data) = false ∧
      transform ("Database".data)
          (transform ("Database".data) ("static metadata = \x7b".data)) =
        transform ("Database".data) ("static metadata = \x7b".data) :=
  ⟨by decide, claimC1_amended ("Database".data) ("static metadata = \x7b".data) (by decide)⟩

/-- Claim C2: rule 3 matches the first description field found, inserts the
category line exactly once immediately after it (general statement, for a
text with a single description field), and performs no check for an existing
`category` field — re-running it on already-migrated text inserts a second
`category` line (concrete statement). -/
theorem claimC2 :
    (∀ (cat : List Char) (q1 q2 : Char) (val A B : List Char),
      isQuote q1 = true → isQuote q2 = true → val ≠ [] →
      val.all (fun c => !(isQuote c)) = true →
      occursIn descLit A = false → occursIn descLit B = false →
      sub3 cat (A ++ (descLit ++ q1 :: (val ++ q2 :: ',' :: B))) =
        A ++ ((descLit ++ q1 :: (val ++ [q2, ','])) ++ catRepl cat ++ B)) ∧
    sub3 ("Database".data)
        ("description: \x27d\x27,\n        category: \x5c\x27Database\x5c\x27,\n".data) =
      ("description: \x27d\x27,\n        category: \x5c\x27Database\x5c\x27,\n        category: \x5c\x27Database\x5c\x27,\n".data) := by
  constructor
  · intro cat q1 q2 val A B hq1 hq2 hval hvq hA hB
    exact sub3_insertOnce cat hq1 hq2 hval hvq hA hB
  · decide

theorem claimC2_witness :
    sub3 ("Database".data)
        ("x".data ++ (descLit ++ '\x27' :: ("d".data ++ '\x27' :: ',' :: "y".data))) =
      "x".data ++ ((descLit ++ '\x27' :: ("d".data ++ ['\x27', ','])) ++
        catRepl ("Database".data) ++ "y".data) :=
  claimC2.1 ("Database".data) '\x27' '\x27' ("d".data) ("x".data) ("y".data)
    (by decide) (by decide) (by decide) (by decide) (by decide) (by decide)

/-- Claim C3: on a target list in which some identifier has no backing file,
the run still completes with the final batch signal, reports `Fixed` exactly
for the identifiers with backing files (in list order), and emits no report
for any absent identifier. -/
theorem claimC3 : ∀ (fs : List (String × List Char)) (ts : List String),
    (∃ t, t ∈ ts ∧ fsGet fs (pathOf t) = none) →
    ((runBatch fs ts).2 =
      (ts.filter fun t => (fsGet fs (pathOf t)).isSome).map Report.fixed ++
        [Report.batchDone]) ∧
    (∀ t, t ∈ ts → fsGet fs (pathOf t) = none →
      Report.fixed t ∉ (runBatch fs ts).2) := by
  intro fs ts _
  refine ⟨runBatch_reports ts fs, ?_⟩
  intro t _ hnone hmem
  rw [runBatch_reports ts fs] at hmem
  rcases List.mem_append.1 hmem with hm | hm
  · rcases List.mem_map.1 hm with ⟨u, hu, hfix⟩
    have hut : u = t := by
      simpa using hfix
    subst hut
    have := (List.mem_filter.1 hu).2
    rw [hnone] at this
    exact absurd this (by simp)
  · simp at hm

theorem claimC3_witness :
    ((runBatch [(pathOf "ProjectScaffoldingTool.ts", "a".data)] tools).2 =
      ((tools.filter fun t =>
        (fsGet [(pathOf "ProjectScaffoldingTool.ts", "a".data)] (pathOf t)).isSome).map
          Report.fixed) ++ [Report.batchDone]) ∧
    (∀ t, t ∈ tools →
      fsGet [(pathOf "ProjectScaffoldingTool.ts", "a".data)] (pathOf t) = none →
      Report.fixed t ∉ (runBatch [(pathOf "ProjectScaffoldingTool.ts", "a".data)] tools).2) :=
  claimC3 [(pathOf "ProjectScaffoldingTool.ts", "a".data)] tools
    ⟨"DatabaseSchemaTool.ts", by decide, by decide⟩

/-- Claim C4: the category lookup returns the mapped label for identifiers in
the map and the fixed default `Development` for identifiers absent from it,
and a file processed under an unmapped identifier gets a category field with
the label `Development` injected (as the template writes it, with the literal
backslash-escaped quotes around the label). -/
theorem claimC4 :
    (∀ t c, assocGet categories t = some c → categoryOf t = c) ∧
    (∀ t, assocGet categories t = none → categoryOf t = "Development") ∧
    occursIn ("category: \x5c\x27Development\x5c\x27,".data)
      (transform (categoryOf "UnknownTool.ts").data legacyExample) = true := by
  refine ⟨?_, ?_, by decide⟩
  · intro t c h
    simp [categoryOf, h]
  · intro t h
    simp [categoryOf, h]

theorem claimC4_witness :
    categoryOf "DatabaseSchemaTool.ts" = "Database" ∧
      categoryOf "UnknownTool.ts" = "Development" :=
  ⟨claimC4.1 "DatabaseSchemaTool.ts" "Database" (by decide),
   claimC4.2.1 "UnknownTool.ts" (by decide)⟩

/-- Claim C5: the four rules in declared order, run on the minimal legacy
module of the specification with the mapped label `Database`, produce a text
containing the three-symbol import, the instance-typed metadata declaration,
the category field immediately after the description field, and the widened
two-parameter execute signature. -/
theorem claimC5 :
    occursIn R1 (transform (categoryOf "DatabaseSchemaTool.ts").data legacyExample)
        = true ∧
    occursIn R2 (transform (categoryOf "DatabaseSchemaTool.ts").data legacyExample)
        = true ∧
    occursIn ("description: \x27d\x27,\n        category: \x5c\x27Database\x5c\x27,".data)
        (transform (categoryOf "DatabaseSchemaTool.ts").data legacyExample) = true ∧
    occursIn R4 (transform (categoryOf "DatabaseSchemaTool.ts").data legacyExample)
        = true := by
  decide

/-- Claim C6: rule 1 never fires on its own output — the augmented
three-symbol import does not contain the two-symbol pattern, the output of
rule 1 is free of the pattern altogether, and applying rule 1 twice equals
applying it once. -/
theorem claimC6 : ∀ s : List Char,
    occursIn P1 R1 = false ∧ occursIn P1 (sub1 s) = false ∧
      sub1 (sub1 s) = sub1 s :=
  fun s => ⟨by decide, sub1_free s, sub1_idem s⟩

/-- Claim C7: rule 4 matches only the original one-parameter signature — the
widened replacement does not contain it, rule 4's output is free of the
pattern, and applying rule 4 twice equals applying it once. -/
theorem claimC7 : ∀ s : List Char,
    occursIn P4 R4 = false ∧ occursIn P4 (sub4 s) = false ∧
      sub4 (sub4 s) = sub4 s :=
  fun s => ⟨by decide, sub4_free s, sub4_idem s⟩

/-- Claim C8: each rule is a no-op on input not containing its trigger
pattern (for rule 3, on input in which the description pattern matches
nowhere). -/
theorem claimC8 : ∀ (cat s : List Char),
    (occursIn P1 s = false → sub1 s = s) ∧
    (occursIn P2 s = false → sub2 s = s) ∧
    (hasMatch3 s = false → sub3 cat s = s) ∧
    (occursIn P4 s = false → sub4 s = s) :=
  fun cat s => ⟨sub1_noop, sub2_noop, sub3_noop cat s, sub4_noop⟩

theorem claimC8_witness :
    sub1 ("hello".data) = "hello".data ∧ sub2 ("hello".data) = "hello".data ∧
      sub3 ("X".data) ("hello".data) = "hello".data ∧
      sub4 ("hello".data) = "hello".data :=
  ⟨(claimC8 ("X".data) ("hello".data)).1 (by decide),
   (claimC8 ("X".data) ("hello".data)).2.1 (by decide),
   (claimC8 ("X".data) ("hello".data)).2.2.1 (by decide),
   (claimC8 ("X".data) ("hello".data)).2.2.2 (by decide)⟩

/-- Claim C9: rule 3's pattern demands at least one character between the
quotes: at an empty description value `description: '',` the match fails
whatever follows, and on a text whose only description field is empty rule 3
changes nothing. -/
theorem claimC9 :
    (∀ t : List Char, tryMatch3 (descLit ++ '\x27' :: '\x27' :: ',' :: t) = none) ∧
    (∀ (cat A B : List Char), occursIn descLit A = false →
      occursIn descLit B = false →
      sub3 cat (A ++ (descLit ++ '\x27' :: '\x27' :: ',' :: B)) =
        A ++ (descLit ++ '\x27' :: '\x27' :: ',' :: B)) :=
  ⟨tryMatch3_emptyDesc, fun cat _ _ hA hB => sub3_emptyDesc_noop cat hA hB⟩

theorem claimC9_witness :
    sub3 ("X".data) ("x".data ++ (descLit ++ '\x27' :: '\x27' :: ',' :: "y".data)) =
      "x".data ++ (descLit ++ '\x27' :: '\x27' :: ',' :: "y".data) :=
  claimC9.2 ("X".data) ("x".data) ("y".data) (by decide) (by decide)

/-- Claim C10: the content written back for each target of the script's run
is a function of only that target's identifier (through the category map) and
that target's own initial content — no other file influences it, so identical
input yields character-for-character identical output. -/
theorem claimC10 : ∀ (fs : List (String × List Char)) (t : String), t ∈ tools →
    fsGet (runBatch fs tools).1 (pathOf t) =
      (fsGet fs (pathOf t)).map (fun c => transform (categoryOf t).data c) :=
  fun fs t ht => runBatch_content tools fs t ht (by decide)

theorem claimC10_witness :
    fsGet (runBatch [(pathOf "DatabaseSchemaTool.ts", "d".data)] tools).1
        (pathOf "DatabaseSchemaTool.ts") =
      (fsGet [(pathOf "DatabaseSchemaTool.ts", "d".data)]
        (pathOf "DatabaseSchemaTool.ts")).map
          (fun c => transform (categoryOf "DatabaseSchemaTool.ts").data c) :=
  claimC10 [(pathOf "DatabaseSchemaTool.ts", "d".data)] "DatabaseSchemaTool.ts" (by decide)
